import Mathlib

/-!
Verification of the declaration-matching and selective-rendering engine of
the `doc` command-line documentation lookup tool.

The development shallowly embeds the final version of the program (the
variant using a method-set cache and a per-file search state).  Strings are
modelled as lists of characters, Go slices of strings as index functions,
and the `go/ast` nodes as plain structures carrying exactly the fields the
walkers consult.  The external `regexp` library is modelled relationally
(an inductive matching semantics over positions), since only the shape of
the pattern the program hands to it is the program's own code.
-/

namespace DocTool

/-- Strings are lists of characters (Go strings at rune granularity). -/
abbrev Str := List Char

/-- Model of Go `strings.ToLower`: lower-case every character. -/
def strToLower (s : Str) : Str := s.map Char.toLower

/-- Model of Go `ast.IsExported`: the first character of the name is an
upper-case letter; the empty name is not exported. -/
def isExported (s : Str) : Bool :=
  match s with
  | [] => false
  | c :: _ => c.isUpper

/-! ## Flags

The program's behaviour-selecting global boolean flags, gathered in one
record: the eight kind-restriction flags and the three output facets. -/

/-- The process-wide flag state (`constantFlag` … `urlFlag` in the source). -/
structure Flags where
  constF : Bool
  funcF : Bool
  interfaceF : Bool
  methodF : Bool
  packageF : Bool
  structF : Bool
  typeF : Bool
  varF : Bool
  docF : Bool
  srcF : Bool
  urlF : Bool
deriving DecidableEq, Repr

/-- Model of the flag-defaulting prologue of `main`: if no kind flag is
set, enable const, func, method, type and var (but not package, interface
or struct); if no output flag is set, enable doc, src and url. -/
def setDefaultFlags (fl : Flags) : Flags :=
  let fl1 :=
    if !(fl.constF || fl.funcF || fl.interfaceF || fl.methodF || fl.packageF
        || fl.structF || fl.typeF || fl.varF) then
      { fl with constF := true, funcF := true, methodF := true,
                typeF := true, varF := true }
    else fl
  if !(fl1.docF || fl1.srcF || fl1.urlF) then
    { fl1 with docF := true, srcF := true, urlF := true }
  else fl1

/-! ## The name matcher

`File.match` in the source: a candidate name matches only if it is
exported; with no compiled regular expression the comparison is
case-insensitive literal equality with the search identifier, otherwise
the compiled matcher decides.  The compiled matcher object of the external
`regexp` package is modelled as an abstract boolean predicate here; its
construction is modelled separately below. -/

/-- Model of `File.match`: `rxm` is the compiled matcher (`f.regexp`,
`none` when the target is a literal), `ident` the search target. -/
def fmatch (rxm : Option (Str → Bool)) (ident name : Str) : Bool :=
  if !isExported name then false
  else
    match rxm with
    | none => strToLower name == strToLower ident
    | some m => m name

/-! ## Method sets

`File.methodSet` receives a `*types.MethodSet`, already sorted by method
name; each entry is modelled by the data the program reads from it: the
method object's name and declaration position. -/

/-- One entry of a resolved method set: the method object's name and its
declaration position (`set.At(i).Obj().Name()` / `.Pos()`). -/
structure MethodSel where
  name : Str
  pos : Nat
deriving DecidableEq, Repr

/-- Model of the method-set selection in `File.Visit`'s `TypeSpec` branch:
take the value-receiver method set; if it is empty, use the set of the
pointer to the named type instead. -/
def resolveMethodSet (valueSet ptrSet : List MethodSel) : List MethodSel :=
  if valueSet.length == 0 then ptrSet else valueSet

/-- The `method` struct of the source: the ordinal of the entry in the
incoming method set (`index`, which doc slot to write) and the selection. -/
structure MethodM where
  index : Nat
  sel : MethodSel
deriving DecidableEq, Repr

/-- The loop of `File.methodSet` that collects the exported entries of the
set, remembering each one's ordinal `i`. -/
def buildMethodsAux (set : List MethodSel) (i : Nat) : List MethodM :=
  match set with
  | [] => []
  | s :: rest =>
      (if isExported s.name then [⟨i, s⟩] else []) ++ buildMethodsAux rest (i + 1)

/-- The exported entries of the method set with their ordinals. -/
def buildMethods (set : List MethodSel) : List MethodM :=
  buildMethodsAux set 0

/-! ## Syntax-tree model

The walkers consult only a few fields of the `go/ast` nodes; each node kind
is a structure carrying exactly those, plus the text the pretty-printer
would produce for it and the doc comment the comment map binds to it. -/

/-- An identifier occurrence: its name and source position. -/
structure IdentN where
  name : Str
  pos : Nat
deriving DecidableEq, Repr

/-- A function or method declaration (`*ast.FuncDecl`): its name
identifier, the printed receiver type when it has one, the printed text of
the signature, the printed text of the body when present, and the doc
comment the comment map binds to the declaration. -/
structure FuncDecl where
  name : Str
  namePos : Nat
  recv : Option Str
  sig : Str
  body : Option Str
  doc : Str
deriving DecidableEq, Repr

/-- The underlying shape of a type-spec's type expression, as the
`spec.Type.(type)` switch of the walker distinguishes it. -/
inductive TypeShape where
  | interfaceT
  | structT
  | otherT
deriving DecidableEq, Repr

/-- The identifier-to-type information the one-pass type check provides for
a type name (`f.objs[spec.Name]`): the value-receiver method set of the
named type and the method set of the pointer to it.  `none` models a name
the best-effort check resolved no type for. -/
structure TypeInfo where
  valueSet : List MethodSel
  ptrSet : List MethodSel
deriving DecidableEq, Repr

/-- One spec of a grouped declaration (`ast.Spec`). -/
inductive SpecN where
  | valueSpec (names : List IdentN)
  | typeSpec (name : IdentN) (shape : TypeShape) (text : Str) (doc : Str)
      (tinfo : Option TypeInfo)
  | importSpec
deriving DecidableEq, Repr

/-- The keyword of a grouped declaration (`n.Tok`). -/
inductive Tok where
  | constT
  | varT
  | typeT
  | importT
deriving DecidableEq, Repr

/-- A grouped declaration (`*ast.GenDecl`): keyword, whether the group is
parenthesized (`n.Lparen.IsValid()`), its specs, its printed text and the
doc comment bound to the group node. -/
structure GenDecl where
  tok : Tok
  lparenValid : Bool
  specs : List SpecN
  text : Str
  doc : Str
deriving DecidableEq, Repr

/-- A top-level declaration the walker visits. -/
inductive Decl where
  | gen (g : GenDecl)
  | func (d : FuncDecl)
deriving DecidableEq, Repr

/-- The per-file path data of the `File` struct: the file name and the
recognized root-directory / documentation-URL pair computed for it
(`f.name`, `f.pathPrefix`, `f.urlPrefix` in the source). -/
structure FileCtx where
  fname : Str
  rootPath : Str
  urlBase : Str
deriving DecidableEq, Repr

/-- One parsed file of the package: its path data, its declarations, and
the package clause data `pkgComments` reads (the package-level doc comment
with its position, when present, and the package name). -/
structure FileModel where
  ctx : FileCtx
  decls : List Decl
  pkgDoc : Option (Str × Nat)
  pkgName : Str
deriving DecidableEq, Repr

/-! ## Rendering -/

/-- Model of Go `strings.TrimPrefix`. -/
def trimPathRoot (s pre : Str) : Str :=
  if pre.isPrefixOf s then s.drop pre.length else s

/-- The index of the last occurrence of `c`, or `none`
(Go `strings.LastIndex` restricted to a single character). -/
def lastIdxOf (c : Char) (s : Str) : Option Nat :=
  (List.range s.length).foldl
    (fun acc i => if s.get? i == some c then some i else acc) none

/-- Model of `File.packageURL`: strip the recognized root from the file
path, drop the trailing file name (keep up to and including the last path
separator, when its index is positive), and prepend the URL base.  The
path separator is modelled as `/`. -/
def packageURL (f : FileCtx) : Str :=
  let s := trimPathRoot f.fname f.rootPath
  let s :=
    match lastIdxOf '/' s with
    | some i => if 0 < i then s.take (i + 1) else s
    | none => s
  f.urlBase ++ s

/-- Model of `File.sourcePos`: the `file:line:` locator line, present only
when the src facet is on.  Positions stand in for line numbers. -/
def sourcePos (fl : Flags) (f : FileCtx) (pos : Nat) : Str :=
  if !fl.srcF then []
  else f.fname ++ [':'] ++ Nat.toDigits 10 pos ++ [':', '\n']

/-- Model of `File.nameURL`: the URL line with a `#Name` anchor. -/
def nameURL (fl : Flags) (f : FileCtx) (name : Str) : Str :=
  if !fl.urlF then []
  else packageURL f ++ ['#'] ++ name ++ ['\n']

/-- The receiver type with a leading `*` stripped, as `methodURL` does. -/
def stripStar (typeName : Str) : Str :=
  match typeName with
  | '*' :: rest => rest
  | other => other

/-- Model of `File.methodURL`: the URL line with a `#Type.Method` anchor. -/
def methodURL (fl : Flags) (f : FileCtx) (typeName name : Str) : Str :=
  if !fl.urlF then []
  else packageURL f ++ ['#'] ++ stripStar typeName ++ ['.'] ++ name ++ ['\n']

/-- Model of `File.docs` on a node with doc comment `doc` and printed text
`text`: nothing unless the doc facet is on, otherwise the commented node's
print followed by a blank line. -/
def docsStr (fl : Flags) (doc text : Str) : Str :=
  if !fl.docF then []
  else doc ++ text ++ ['\n', '\n']

/-- The printed text of a function declaration: its signature followed by
its body when the body is present. -/
def funcText (d : FuncDecl) : Str :=
  d.sig ++ (match d.body with | none => [] | some b => b)

/-- `File.docs` applied to a function declaration node. -/
def funcDocs (fl : Flags) (d : FuncDecl) : Str :=
  docsStr fl d.doc (funcText d)

/-! ## The method visitor

`methodVisitor.Visit` reacts only to function declarations: the first
remembered method whose declaration position equals the position of the
declaration's name identifier is the one being looked at; its doc slot is
written and it is dropped from the remaining list (unless it was the last
remaining method, in which case the walk of the subtree just stops). -/

/-- The mutable state of the method walk: the remaining search list and
the doc slots (`visitor.methods`, `visitor.docs`; the slice of docs is
modelled as an index function). -/
structure MVState where
  methods : List MethodM
  docs : Nat → Str

/-- The loop of `methodVisitor.Visit` over the remaining methods: the
first entry whose position equals `pos`, together with the list with that
entry removed. -/
def mvFind (pos : Nat) : List MethodM → Option (MethodM × List MethodM)
  | [] => none
  | m :: rest =>
      if m.sel.pos == pos then some (m, rest)
      else
        match mvFind pos rest with
        | none => none
        | some (m', rest') => some (m', m :: rest')

/-- `methodVisitor.Visit` on one function declaration: on a position
match, clear the body, write the doc slot at the method's ordinal, and
drop the method from the list unless it was the only one left. -/
def mvStep (fl : Flags) (st : MVState) (d : FuncDecl) : MVState :=
  match mvFind d.namePos st.methods with
  | none => st
  | some (m, remaining) =>
      let docs' := fun j =>
        if j = m.index then funcDocs fl { d with body := none } else st.docs j
      if st.methods.length == 1 then { methods := st.methods, docs := docs' }
      else { methods := remaining, docs := docs' }

/-- The method walk over one declaration: only function declarations are
acted on. -/
def mvStepDecl (fl : Flags) (st : MVState) : Decl → MVState
  | .gen _ => st
  | .func d => mvStep fl st d

/-- The method walk over one file's tree (`ast.Walk(visitor, file.file)`). -/
def mvFile (fl : Flags) (st : MVState) (f : FileModel) : MVState :=
  f.decls.foldl (mvStepDecl fl) st

/-- Model of `File.methodSet`: collect the exported entries with their
ordinals, walk every file of the package, then print the non-empty doc
slots in ordinal order. -/
def methodSetDocs (fl : Flags) (set : List MethodSel) (allFiles : List FileModel) :
    List Str :=
  let methods := buildMethods set
  if methods.isEmpty then []
  else
    let st := allFiles.foldl (mvFile fl) ⟨methods, fun _ => []⟩
    ((List.range set.length).map st.docs).filter (fun s => !s.isEmpty)

/-- The text `File.methodSet` sends to standard output. -/
def methodSetOut (fl : Flags) (set : List MethodSel) (allFiles : List FileModel) :
    Str :=
  (methodSetDocs fl set allFiles).foldr (· ++ ·) []

/-! ## The declaration walker

`File.Visit`, split by node kind.  Each visit function returns the pair of
the text printed and whether `printNode` recorded a hit with printing off
(the discovery pass's `found` flag). -/

/-- The output of a piece of the walk: printed text and the found flag. -/
abbrev WalkOut := Str × Bool

/-- The empty walk output. -/
def wnil : WalkOut := ([], false)

/-- Sequencing of walk outputs: texts concatenate, found flags or. -/
def wseq (a b : WalkOut) : WalkOut := (a.1 ++ b.1, a.2 || b.2)

/-- Model of `File.printNode`: with printing off, only the found flag is
set; with printing on, the URL line, the locator line and the doc text are
emitted in that order. -/
def printNode (fl : Flags) (f : FileCtx) (doPrint : Bool) (url : Str)
    (identPos : Nat) (docText : Str) : WalkOut :=
  if !doPrint then ([], true)
  else (url ++ sourcePos fl f identPos ++ docText, false)

/-- The `ValueSpec` arm of `File.Visit`: under the const or var kind flag
matching the group's keyword, the first name of the spec that matches is
printed (rendering the whole group node), and the loop breaks. -/
def visitValueSpec (fl : Flags) (f : FileCtx) (rxm : Option (Str → Bool))
    (ident : Str) (doPrint : Bool) (g : GenDecl) (names : List IdentN) : WalkOut :=
  if (fl.constF && g.tok == .constT) || (fl.varF && g.tok == .varT) then
    match names.find? (fun id => fmatch rxm ident id.name) with
    | some id =>
        printNode fl f doPrint (nameURL fl f id.name) id.pos
          (docsStr fl g.doc g.text)
    | none => wnil
  else wnil

/-- The `TypeSpec` arm of `File.Visit`: the rendered node is the group
when the group is unparenthesized, the spec otherwise; the type kind flag
short-circuits the interface/struct shape checks; and on a match, when
printing is on and the type check resolved the name, the method set of the
named type (falling back to the pointer's set when empty) is printed. -/
def visitTypeSpec (fl : Flags) (f : FileCtx) (rxm : Option (Str → Bool))
    (ident : Str) (allFiles : List FileModel) (doPrint : Bool) (g : GenDecl)
    (nameId : IdentN) (shape : TypeShape) (stext sdoc : Str)
    (tinfo : Option TypeInfo) : WalkOut :=
  let nodeText := if g.lparenValid then stext else g.text
  let nodeDoc := if g.lparenValid then sdoc else g.doc
  if fmatch rxm ident nameId.name then
    wseq
      (if fl.typeF then
        printNode fl f doPrint (nameURL fl f nameId.name) nameId.pos
          (docsStr fl nodeDoc nodeText)
      else
        match shape with
        | .interfaceT =>
            if fl.interfaceF then
              printNode fl f doPrint (nameURL fl f nameId.name) nameId.pos
                (docsStr fl nodeDoc nodeText)
            else wnil
        | .structT =>
            if fl.structF then
              printNode fl f doPrint (nameURL fl f nameId.name) nameId.pos
                (docsStr fl nodeDoc nodeText)
            else wnil
        | .otherT => wnil)
      (match tinfo with
      | some ti =>
          if doPrint then
            (methodSetOut fl (resolveMethodSet ti.valueSet ti.ptrSet) allFiles,
              false)
          else wnil
      | none => wnil)
  else wnil

/-- The `FuncDecl` arm of `File.Visit`: on a name match the body is
cleared, then a method is printed under the method kind flag and a free
function under the func kind flag. -/
def visitFunc (fl : Flags) (f : FileCtx) (rxm : Option (Str → Bool))
    (ident : Str) (doPrint : Bool) (d : FuncDecl) : WalkOut :=
  if fmatch rxm ident d.name then
    let n := { d with body := none }
    match d.recv with
    | some recvType =>
        if fl.methodF then
          printNode fl f doPrint (methodURL fl f recvType d.name) d.namePos
            (funcDocs fl n)
        else wnil
    | none =>
        if fl.funcF then
          printNode fl f doPrint (nameURL fl f d.name) d.namePos (funcDocs fl n)
        else wnil
  else wnil

/-- One spec of a grouped declaration. -/
def visitSpec (fl : Flags) (f : FileCtx) (rxm : Option (Str → Bool))
    (ident : Str) (allFiles : List FileModel) (doPrint : Bool) (g : GenDecl) :
    SpecN → WalkOut
  | .valueSpec names => visitValueSpec fl f rxm ident doPrint g names
  | .typeSpec nameId shape stext sdoc tinfo =>
      visitTypeSpec fl f rxm ident allFiles doPrint g nameId shape stext sdoc tinfo
  | .importSpec => wnil

/-- One top-level declaration. -/
def visitDecl (fl : Flags) (f : FileCtx) (rxm : Option (Str → Bool))
    (ident : Str) (allFiles : List FileModel) (doPrint : Bool) : Decl → WalkOut
  | .gen g =>
      (g.specs.map (visitSpec fl f rxm ident allFiles doPrint g)).foldr wseq wnil
  | .func d => visitFunc fl f rxm ident doPrint d

/-- The walk of one file's tree (`ast.Walk(file, file.file)`). -/
def fileWalk (fl : Flags) (rxm : Option (Str → Bool)) (ident : Str)
    (allFiles : List FileModel) (doPrint : Bool) (f : FileModel) : WalkOut :=
  (f.decls.map (visitDecl fl f.ctx rxm ident allFiles doPrint)).foldr wseq wnil

/-- Model of `File.pkgComments`: nothing without a package doc comment;
otherwise the package URL line (under the url facet), the locator line
(under the src facet) and the package clause with the comment text (under
the doc facet). -/
def pkgCommentsOut (fl : Flags) (f : FileModel) : Str :=
  match f.pkgDoc with
  | none => []
  | some (docText, pos) =>
      (if fl.urlF then packageURL f.ctx ++ ['\n'] else [])
        ++ sourcePos fl f.ctx pos
        ++ (if fl.docF then
              ['p', 'a', 'c', 'k', 'a', 'g', 'e', ' '] ++ f.pkgName ++ ['\n']
                ++ docText ++ ['\n', '\n']
            else [])

/-- Model of `doPackage`'s output on one package, the files given in the
order the runtime enumerates `pkg.Files`.  In package mode only files with
a package doc comment take part and each prints its package comment during
the first loop.  Otherwise a discovery walk with printing off decides
whether anything in the package matches; only then is every file walked
again with printing on (the type-check information being available only in
that second walk). -/
def doPackageOut (fl : Flags) (rxm : Option (Str → Bool)) (ident : Str)
    (files : List FileModel) : Str :=
  if fl.packageF then
    ((files.filter (fun f => f.pkgDoc.isSome)).map (pkgCommentsOut fl)).foldr
      (· ++ ·) []
  else
    let found := files.any (fun f => (fileWalk fl rxm ident files false f).2)
    if found then
      (files.map (fun f => (fileWalk fl rxm ident files true f).1)).foldr
        (· ++ ·) []
    else []

/-! ## The regular-expression model

The program hands the external `regexp` package the pattern
`"^(?i:" ++ ident ++ ")$"` and then calls `MatchString`, which reports
whether the pattern matches anywhere in the candidate.  The library is
modelled by a regex syntax with explicit `^`, `$` and `(?i:...)` nodes and
an inductive matching relation over positions of the candidate string. -/

/-- Regular-expression syntax: literal character, any character, empty
word, concatenation, alternation, repetition, the `^` and `$` anchors and
the case-insensitive group `(?i:...)`. -/
inductive Regex where
  | lit (c : Char)
  | anyc
  | eps
  | seq (r1 r2 : Regex)
  | alt (r1 r2 : Regex)
  | star (r : Regex)
  | caret
  | dollar
  | nocase (r : Regex)
deriving DecidableEq, Repr

/-- Whether pattern character `c` matches text character `c'`, with or
without case folding. -/
def charMatch (ci : Bool) (c c' : Char) : Bool :=
  if ci then c.toLower == c'.toLower else c == c'

/-- `Matches s ci r i j`: the regex `r` matches the slice of `s` from
position `i` (inclusive) to `j` (exclusive), under case-insensitivity flag
`ci`; `^` matches the empty slice at position 0 and `$` the empty slice at
the end of `s`. -/
inductive Matches (s : Str) : Bool → Regex → Nat → Nat → Prop where
  | litM : ∀ ci c i (h : i < s.length),
      charMatch ci c (s.get ⟨i, h⟩) = true → Matches s ci (.lit c) i (i + 1)
  | anyM : ∀ ci i, i < s.length → Matches s ci .anyc i (i + 1)
  | epsM : ∀ ci i, i ≤ s.length → Matches s ci .eps i i
  | seqM : ∀ ci r1 r2 i j k,
      Matches s ci r1 i j → Matches s ci r2 j k → Matches s ci (.seq r1 r2) i k
  | altLM : ∀ ci r1 r2 i j, Matches s ci r1 i j → Matches s ci (.alt r1 r2) i j
  | altRM : ∀ ci r1 r2 i j, Matches s ci r2 i j → Matches s ci (.alt r1 r2) i j
  | starNilM : ∀ ci r i, i ≤ s.length → Matches s ci (.star r) i i
  | starConsM : ∀ ci r i j k,
      Matches s ci r i j → Matches s ci (.star r) j k → Matches s ci (.star r) i k
  | caretM : ∀ ci, Matches s ci .caret 0 0
  | dollarM : ∀ ci, Matches s ci .dollar s.length s.length
  | nocaseM : ∀ ci r i j, Matches s true r i j → Matches s ci (.nocase r) i j

/-- Model of the library's `MatchString`: the pattern matches some slice
of the candidate. -/
def MatchString (r : Regex) (s : Str) : Prop :=
  ∃ i j, Matches s false r i j

/-- The regex the program compiles for a search pattern whose parse is
`r`: the pattern string is `"^(?i:" ++ ident ++ ")$"`. -/
def compiledRegex (r : Regex) : Regex :=
  .seq .caret (.seq (.nocase r) .dollar)

/-- `File.match` with a compiled regular expression, at the relational
model's granularity: the name must be exported and the compiled anchored
case-folded pattern must match it. -/
def fileMatchRegex (r : Regex) (name : Str) : Prop :=
  isExported name = true ∧ MatchString (compiledRegex r) name

/-! ## The orchestration model

`main` resolves the candidate directories first (`paths`, which walks each
source root), then parses each directory and analyzes each package found
there.  The regular-expression target is only compiled inside `doPackage`,
once per file, and a compilation failure exits the process there.  Events
record the order of the externally visible steps. -/

/-- The characters `regexp.QuoteMeta` escapes. -/
def isMetaChar (c : Char) : Bool :=
  c == '\\' || c == '.' || c == '+' || c == '*' || c == '?' || c == '(' ||
  c == ')' || c == '|' || c == '[' || c == ']' || c == '\x7b' || c == '\x7d' ||
  c == '^' || c == '$'

/-- Model of `regexp.QuoteMeta`: escape every metacharacter. -/
def quoteMeta (s : Str) : Str :=
  s.flatMap (fun c => if isMetaChar c then ['\\', c] else [c])

/-- The test `regexp.QuoteMeta(ident) != ident` by which `doPackage`
decides that the target is a regular expression. -/
def isRegexTarget (ident : Str) : Bool :=
  !(quoteMeta ident == ident)

/-- The externally visible steps of a run, in order. -/
inductive Event where
  | walkRoot (root : Str)
  | parseDir (dir : Str)
  | regexFatal
  | printed (s : Str)
deriving DecidableEq, Repr

/-- One candidate directory: its path and the packages the parser finds in
it, each a list of files. -/
structure DirM where
  dpath : Str
  pkgs : List (List FileModel)
deriving Repr

/-- One source root (`GOROOT` or an entry of `GOPATH`) with the candidate
directories its recursive walk contributes. -/
structure RootM where
  rpath : Str
  dirs : List DirM
deriving Repr

/-- `doPackage` as a step of the run: in package mode files without a
package doc comment are dropped before anything else; for the remaining
files, when the target is a regular expression, the regex is compiled for
the first file, and a compilation failure is fatal (exit 2) before any
matching happens; otherwise the package's output is printed. -/
def doPackageRun (compile : Str → Option (Str → Bool)) (fl : Flags)
    (ident : Str) (files : List FileModel) : List Event × Bool :=
  let considered := if fl.packageF then files.filter (fun f => f.pkgDoc.isSome)
    else files
  if considered.isEmpty then ([], false)
  else if isRegexTarget ident then
    match compile ident with
    | none => ([.regexFatal], true)
    | some m => ([.printed (doPackageOut fl (some m) ident files)], false)
  else ([.printed (doPackageOut fl none ident files)], false)

/-- The packages of one directory, stopping at a fatal error. -/
def runPkgs (compile : Str → Option (Str → Bool)) (fl : Flags) (ident : Str) :
    List (List FileModel) → List Event × Bool
  | [] => ([], false)
  | p :: rest =>
      let r := doPackageRun compile fl ident p
      if r.2 then (r.1, true)
      else
        let r' := runPkgs compile fl ident rest
        (r.1 ++ r'.1, r'.2)

/-- `lookInDirectory` over the list of candidate directories: each
directory is parsed, then its packages are analyzed; a fatal error stops
the run. -/
def runDirs (compile : Str → Option (Str → Bool)) (fl : Flags) (ident : Str) :
    List DirM → List Event × Bool
  | [] => ([], false)
  | d :: rest =>
      let r := runPkgs compile fl ident d.pkgs
      if r.2 then (.parseDir d.dpath :: r.1, true)
      else
        let r' := runDirs compile fl ident rest
        (.parseDir d.dpath :: r.1 ++ r'.1, r'.2)

/-- The run of `main` after flag parsing: first `paths` walks every source
root collecting the candidate directories, then each directory is
processed in order. -/
def runDoc (compile : Str → Option (Str → Bool)) (fl : Flags) (ident : Str)
    (roots : List RootM) : List Event × Bool :=
  let walkEvents := roots.map (fun r => Event.walkRoot r.rpath)
  let r := runDirs compile fl ident (roots.flatMap (fun r => r.dirs))
  (walkEvents ++ r.1, r.2)

/-! ## Derived views of the model used by the statements -/

/-- The function declaration a top-level declaration carries, if any. -/
def declFunc : Decl → Option FuncDecl
  | .gen _ => none
  | .func d => some d

/-- The function declarations of one file, in tree order. -/
def fileFuncs (f : FileModel) : List FuncDecl :=
  f.decls.filterMap declFunc

/-- The function declarations of the whole package, files in enumeration
order. -/
def packageFuncs (allFiles : List FileModel) : List FuncDecl :=
  allFiles.flatMap fileFuncs

/-- Whether a spec carries no resolved type information. -/
def specNoTI : SpecN → Bool
  | .typeSpec _ _ _ _ tinfo => tinfo.isNone
  | _ => true

/-- Whether a declaration carries no resolved type information. -/
def declNoTI : Decl → Bool
  | .gen g => g.specs.all specNoTI
  | .func _ => true

/-- Whether a file carries no resolved type information, so that its walk
never triggers a method-set walk. -/
def fileNoTI (f : FileModel) : Bool :=
  f.decls.all declNoTI

/-- The invariant of the method walk's doc slots: every slot is either
still empty or holds the docs-rendering of some function declaration of
the package, body cleared. -/
def DocsFromDecls (fl : Flags) (allFiles : List FileModel) (docs : Nat → Str) : Prop :=
  ∀ j, docs j = [] ∨ ∃ d : FuncDecl, Decl.func d ∈ (allFiles.flatMap FileModel.decls) ∧
    docs j = funcDocs fl { d with body := none }

/-- The invariant of the method walk relative to the processed function
declarations `done`: the remaining search list is a sublist of the
remembered methods, every method none of `done` declares is still
searched for, every method some element of `done` declares has its slot
written with that declaration's docs-rendering (via the lookup `declOf`),
and every other slot is still empty. -/
def MVInv (fl : Flags) (methods0 : List MethodM) (declOf : MethodM → FuncDecl)
    (done : List FuncDecl) (st : MVState) : Prop :=
  st.methods.Sublist methods0 ∧
  (∀ m ∈ methods0, (∀ d ∈ done, d.namePos ≠ m.sel.pos) → m ∈ st.methods) ∧
  (∀ m ∈ methods0, (∃ d ∈ done, d.namePos = m.sel.pos) →
    st.docs m.index = funcDocs fl { declOf m with body := none }) ∧
  (∀ j : Nat, (¬ ∃ m ∈ methods0, m.index = j ∧ ∃ d ∈ done, d.namePos = m.sel.pos) →
    st.docs j = [])

/-! ## Concrete fixtures -/

/-- The flag record with every flag off. -/
def flagsNone : Flags :=
  ⟨false, false, false, false, false, false, false, false, false, false, false⟩

/-- Flags for a literal search printing documentation of functions only. -/
def flagsLitDoc : Flags :=
  { flagsNone with funcF := true, docF := true }

/-- A file context fixture. -/
def exCtx : FileCtx := ⟨['a'], [], []⟩

/-- A file whose only declaration is an exported function `FOO`. -/
def exF1 : FileModel :=
  ⟨exCtx, [.func ⟨['F', 'O', 'O'], 1, none, ['x'], none, ['p']⟩], none, []⟩

/-- A file whose only declaration is an exported function `Foo`. -/
def exF2 : FileModel :=
  ⟨exCtx, [.func ⟨['F', 'o', 'o'], 2, none, ['y'], none, ['q']⟩], none, []⟩

/-- A file with no declarations. -/
def exF3 : FileModel := ⟨exCtx, [], none, []⟩

/-- A source tree with one directory holding one single-file package. -/
def exRoots : List RootM := [⟨['r'], [⟨['d'], [[exF3]]⟩]⟩]

/-- Method declarations `A`, `B`, `C` of a type `T`, with bodies. -/
def exDA : FuncDecl := ⟨['A'], 10, some ['T'], ['s', 'a'], some ['b', 'a'], ['d', 'a']⟩

/-- Method declaration `B` of the fixture type. -/
def exDB : FuncDecl := ⟨['B'], 20, some ['T'], ['s', 'b'], some ['b', 'b'], ['d', 'b']⟩

/-- Method declaration `C` of the fixture type. -/
def exDC : FuncDecl := ⟨['C'], 30, some ['T'], ['s', 'c'], some ['b', 'c'], ['d', 'c']⟩

/-- A method set in canonical (alphabetic) order `A`, `B`, `C`. -/
def exSet : List MethodSel := [⟨['A'], 10⟩, ⟨['B'], 20⟩, ⟨['C'], 30⟩]

/-- A package whose single file declares the methods in source order
`C`, `A`, `B`. -/
def exMFiles : List FileModel :=
  [⟨exCtx, [.func exDC, .func exDA, .func exDB], none, []⟩]

/-- The lookup from remembered methods to their declarations in the
fixture package. -/
def exDeclOf : MethodM → FuncDecl :=
  fun m => if m.index = 0 then exDA else if m.index = 1 then exDB else exDC

/-! ## Helper lemmas -/

/-- Lower-casing two strings gives the same result exactly when they agree
character by character up to case. -/
theorem strToLower_eq_iff (s t : Str) :
    strToLower s = strToLower t ↔
      List.Forall₂ (fun a b => a.toLower = b.toLower) s t := by
  induction s generalizing t with
  | nil => cases t <;> simp [strToLower]
  | cons c s ih =>
      cases t with
      | nil => simp [strToLower]
      | cons d t =>
          simp only [strToLower, List.map_cons, List.cons.injEq,
            List.forall₂_cons] at ih ⊢
          exact and_congr Iff.rfl (ih t)

/-- A method set with an exported entry yields a non-empty search list. -/
theorem buildMethodsAux_ne_nil (set : List MethodSel) (i : Nat)
    (h : ∃ m ∈ set, isExported m.name = true) :
    buildMethodsAux set i ≠ [] := by
  induction set generalizing i with
  | nil => simp at h
  | cons s rest ih =>
      rcases h with ⟨m, hm, hex⟩
      rcases List.mem_cons.mp hm with rfl | hm'
      · simp [buildMethodsAux, hex]
      · have htl := ih (i + 1) ⟨m, hm', hex⟩
        cases hs : isExported s.name <;> simp [buildMethodsAux, hs, htl]

/-- The search loop of the method visitor finds nothing exactly when no
remembered method has the declaration's position. -/
theorem mvFind_eq_none_iff (pos : Nat) (ms : List MethodM) :
    mvFind pos ms = none ↔ ∀ m ∈ ms, m.sel.pos ≠ pos := by
  induction ms with
  | nil => simp [mvFind]
  | cons a tl ih =>
      by_cases ha : a.sel.pos = pos
      · simp [mvFind, ha]
      · cases hr : mvFind pos tl with
        | none =>
            simp only [mvFind, beq_iff_eq, if_neg ha, hr, List.mem_cons]
            constructor
            · intro _ m' hm'
              rcases hm' with rfl | hm'
              · exact ha
              · exact (ih.mp hr) m' hm'
            · intro _
              trivial
        | some p =>
            rcases p with ⟨m', rest'⟩
            simp only [mvFind, beq_iff_eq, if_neg ha, hr, List.mem_cons]
            constructor
            · intro hcontra
              exact absurd hcontra (by simp)
            · intro hall
              have hnone : mvFind pos tl = none :=
                ih.mpr (fun x hx => hall x (Or.inr hx))
              rw [hr] at hnone
              exact absurd hnone (by simp)

/-- What the search loop returns on success: the found method is a
remembered one, its position is the declaration's, and the returned list
is the remembered list with exactly that method removed. -/
theorem mvFind_some_spec (pos : Nat) (ms : List MethodM) (m : MethodM)
    (rest : List MethodM) (h : mvFind pos ms = some (m, rest)) :
    m ∈ ms ∧ m.sel.pos = pos ∧ rest.Sublist ms ∧
      ∀ x ∈ ms, x ∈ rest ∨ x = m := by
  induction ms generalizing rest with
  | nil => simp [mvFind] at h
  | cons a tl ih =>
      by_cases ha : a.sel.pos = pos
      · simp only [mvFind, beq_iff_eq, if_pos ha, Option.some.injEq,
          Prod.mk.injEq] at h
        rcases h with ⟨rfl, rfl⟩
        exact ⟨List.mem_cons_self _ _, ha, List.sublist_cons_self _ _,
          fun x hx => by
            rcases List.mem_cons.mp hx with rfl | hx'
            · exact Or.inr rfl
            · exact Or.inl hx'⟩
      · simp only [mvFind, beq_iff_eq, if_neg ha] at h
        cases hr : mvFind pos tl with
        | none => rw [hr] at h; exact absurd h (by simp)
        | some p =>
            rcases p with ⟨m', rest'⟩
            rw [hr] at h
            simp only [Option.some.injEq, Prod.mk.injEq] at h
            rcases h with ⟨rfl, rfl⟩
            rcases ih rest' hr with ⟨hmem, hp, hsub, hsplit⟩
            refine ⟨List.mem_cons_of_mem _ hmem, hp, hsub.cons₂ a, ?_⟩
            intro x hx
            rcases List.mem_cons.mp hx with rfl | hx'
            · exact Or.inl (List.mem_cons_self _ _)
            · rcases hsplit x hx' with hx'' | rfl
              · exact Or.inl (List.mem_cons_of_mem _ hx'')
              · exact Or.inr rfl

/-! ## The claims -/

/-- C9: with none of the kind-restriction flags set, the defaulting step
of `main` enables exactly const, func, method, type and var; interface,
struct and package stay off. -/
theorem c9_default_kind_filter (docF srcF urlF : Bool) :
    (setDefaultFlags
        ⟨false, false, false, false, false, false, false, false,
          docF, srcF, urlF⟩).constF = true ∧
    (setDefaultFlags
        ⟨false, false, false, false, false, false, false, false,
          docF, srcF, urlF⟩).funcF = true ∧
    (setDefaultFlags
        ⟨false, false, false, false, false, false, false, false,
          docF, srcF, urlF⟩).methodF = true ∧
    (setDefaultFlags
        ⟨false, false, false, false, false, false, false, false,
          docF, srcF, urlF⟩).typeF = true ∧
    (setDefaultFlags
        ⟨false, false, false, false, false, false, false, false,
          docF, srcF, urlF⟩).varF = true ∧
    (setDefaultFlags
        ⟨false, false, false, false, false, false, false, false,
          docF, srcF, urlF⟩).interfaceF = false ∧
    (setDefaultFlags
        ⟨false, false, false, false, false, false, false, false,
          docF, srcF, urlF⟩).structF = false ∧
    (setDefaultFlags
        ⟨false, false, false, false, false, false, false, false,
          docF, srcF, urlF⟩).packageF = false := by
  cases docF <;> cases srcF <;> cases urlF <;> decide

/-- C4: the literal-mode name matcher accepts exactly the exported
candidate names that agree with the target character-by-character up to
case. -/
theorem c4_literal_match_iff (ident name : Str) :
    fmatch none ident name = true ↔
      (isExported name = true ∧
        List.Forall₂ (fun a b => a.toLower = b.toLower) name ident) := by
  unfold fmatch
  cases hE : isExported name with
  | false => simp [hE]
  | true => simp [hE, beq_iff_eq, strToLower_eq_iff]

/-- C2 counterexample: a type with one unexported value-receiver method
and an exported pointer-receiver method.  The value-receiver set has no
exported method, the pointer set has one, yet the selection keeps the
non-empty value-receiver set, and the exported filter then leaves
nothing, contradicting the claim that resolution yields the
pointer-receiver set. -/
theorem c2_counterexample :
    (∀ m ∈ [MethodSel.mk ['f', 'o', 'o'] 1], isExported m.name = false) ∧
    (∃ m ∈ [MethodSel.mk ['f', 'o', 'o'] 1, MethodSel.mk ['B', 'a', 'r'] 2],
      isExported m.name = true) ∧
    resolveMethodSet [MethodSel.mk ['f', 'o', 'o'] 1]
        [MethodSel.mk ['f', 'o', 'o'] 1, MethodSel.mk ['B', 'a', 'r'] 2]
      ≠ [MethodSel.mk ['f', 'o', 'o'] 1, MethodSel.mk ['B', 'a', 'r'] 2] ∧
    buildMethods (resolveMethodSet [MethodSel.mk ['f', 'o', 'o'] 1]
        [MethodSel.mk ['f', 'o', 'o'] 1, MethodSel.mk ['B', 'a', 'r'] 2]) = [] := by
  decide

/-- C2 (amended): the pointer-receiver fallback fires exactly when the
value-receiver method set is empty as a whole (exported or not); when it
is empty and the pointer set holds an exported method, resolution yields
the pointer set and the exported filter keeps something. -/
theorem c2_pointer_fallback (valueSet ptrSet : List MethodSel)
    (hv : valueSet = []) (hp : ∃ m ∈ ptrSet, isExported m.name = true) :
    resolveMethodSet valueSet ptrSet = ptrSet ∧
      buildMethods (resolveMethodSet valueSet ptrSet) ≠ [] := by
  subst hv
  have hres : resolveMethodSet [] ptrSet = ptrSet := by
    simp [resolveMethodSet]
  refine ⟨hres, ?_⟩
  rw [hres]
  exact buildMethodsAux_ne_nil ptrSet 0 hp

/-- C2 witness: the fallback at a concrete type with a single exported
pointer-receiver method. -/
theorem c2_pointer_fallback_witness :
    resolveMethodSet [] [MethodSel.mk ['B', 'a', 'r'] 2]
        = [MethodSel.mk ['B', 'a', 'r'] 2] ∧
      buildMethods (resolveMethodSet [] [MethodSel.mk ['B', 'a', 'r'] 2]) ≠ [] :=
  c2_pointer_fallback [] [MethodSel.mk ['B', 'a', 'r'] 2] rfl
    ⟨MethodSel.mk ['B', 'a', 'r'] 2, by decide, by decide⟩

/-- C8: neither the declaration walker's function arm nor the method
visitor lets the function body reach the output: both render the
declaration with its body cleared, so the output is the same whatever the
body was, under every flag combination. -/
theorem c8_body_cleared (fl : Flags) (f : FileCtx) (rxm : Option (Str → Bool))
    (ident : Str) (doPrint : Bool) (d : FuncDecl) (st : MVState) :
    visitFunc fl f rxm ident doPrint d
        = visitFunc fl f rxm ident doPrint { d with body := none } ∧
      mvStep fl st d = mvStep fl st { d with body := none } := by
  cases d
  exact ⟨rfl, rfl⟩

/-- C3: the method visitor joins a function declaration to a remembered
method by source-position identity alone: if no remembered method has the
declaration's name position the state is untouched (whatever the names
are), a matching position is always found when one exists, and the method
the loop selects has exactly the declaration's position and gets its doc
slot written. -/
theorem c3_position_is_join_key (fl : Flags) (st : MVState) (d : FuncDecl) :
    ((∀ m ∈ st.methods, m.sel.pos ≠ d.namePos) → mvStep fl st d = st) ∧
    ((∃ m ∈ st.methods, m.sel.pos = d.namePos) →
      mvFind d.namePos st.methods ≠ none) ∧
    (∀ m rest, mvFind d.namePos st.methods = some (m, rest) →
      m.sel.pos = d.namePos ∧
        (mvStep fl st d).docs m.index = funcDocs fl { d with body := none }) := by
  refine ⟨?_, ?_, ?_⟩
  · intro h
    unfold mvStep
    rw [(mvFind_eq_none_iff _ _).mpr h]
  · rintro ⟨m, hm, hp⟩ hnone
    exact ((mvFind_eq_none_iff _ _).mp hnone) m hm hp
  · intro m rest hfind
    have hspec := mvFind_some_spec _ _ _ _ hfind
    refine ⟨hspec.2.1, ?_⟩
    simp only [mvStep, hfind]
    split <;> simp

/-- Inversion for the `^` anchor: it matches only the empty slice at the
start of the string. -/
theorem matches_caret_inv {s : Str} {ci : Bool} {i j : Nat}
    (h : Matches s ci .caret i j) : i = 0 ∧ j = 0 := by
  cases h
  exact ⟨rfl, rfl⟩

/-- Inversion for the `$` anchor: it matches only the empty slice at the
end of the string. -/
theorem matches_dollar_inv {s : Str} {ci : Bool} {i j : Nat}
    (h : Matches s ci .dollar i j) : i = s.length ∧ j = s.length := by
  cases h
  exact ⟨rfl, rfl⟩

/-- Inversion for concatenation. -/
theorem matches_seq_inv {s : Str} {ci : Bool} {r1 r2 : Regex} {i k : Nat}
    (h : Matches s ci (.seq r1 r2) i k) :
    ∃ j, Matches s ci r1 i j ∧ Matches s ci r2 j k := by
  cases h with
  | seqM _ _ _ _ j _ h1 h2 => exact ⟨j, h1, h2⟩

/-- Inversion for the case-insensitive group: the inner pattern matches
with folding on. -/
theorem matches_nocase_inv {s : Str} {ci : Bool} {r : Regex} {i j : Nat}
    (h : Matches s ci (.nocase r) i j) : Matches s true r i j := by
  cases h with
  | nocaseM _ _ _ _ h' => exact h'

/-- C5: the matcher built from the compiled pattern `^(?i:r)$` accepts an
exported candidate exactly when the user's pattern matches the whole
candidate, anchored at both ends, case-insensitively; a match of a proper
substring is not enough. -/
theorem c5_regex_anchored_iff (r : Regex) (name : Str) :
    fileMatchRegex r name ↔
      (isExported name = true ∧ Matches name true r 0 name.length) := by
  unfold fileMatchRegex MatchString compiledRegex
  constructor
  · rintro ⟨hex, i, j, h⟩
    rcases matches_seq_inv h with ⟨j1, hc, hrest⟩
    rcases matches_caret_inv hc with ⟨rfl, rfl⟩
    rcases matches_seq_inv hrest with ⟨j2, hnc, hd⟩
    rcases matches_dollar_inv hd with ⟨rfl, rfl⟩
    exact ⟨hex, matches_nocase_inv hnc⟩
  · rintro ⟨hex, h⟩
    exact ⟨hex, 0, name.length,
      .seqM _ _ _ _ _ _ (.caretM _)
        (.seqM _ _ _ _ _ _ (.nocaseM _ _ _ _ h) (.dollarM _))⟩

/-- Unfolding of `quoteMeta` on a cons. -/
theorem quoteMeta_cons (c : Char) (s : Str) :
    quoteMeta (c :: s) =
      (if isMetaChar c then ['\\', c] else [c]) ++ quoteMeta s := by
  simp [quoteMeta]

/-- Quoting never shortens a string. -/
theorem quoteMeta_length_ge (s : Str) : s.length ≤ (quoteMeta s).length := by
  induction s with
  | nil => simp [quoteMeta]
  | cons c s ih =>
      rw [quoteMeta_cons]
      by_cases h : isMetaChar c <;> simp [h] <;> omega

/-- A string holding a metacharacter is changed by quoting, so the
program classifies it as a regular-expression target. -/
theorem isRegexTarget_of_meta (s : Str) (h : ∃ c ∈ s, isMetaChar c = true) :
    isRegexTarget s = true := by
  have hne : quoteMeta s ≠ s := by
    induction s with
    | nil => simp at h
    | cons c s ih =>
        rw [quoteMeta_cons]
        rcases h with ⟨x, hx, hmx⟩
        rcases List.mem_cons.mp hx with rfl | hx'
        · rw [if_pos hmx]
          intro heq
          have hlen := congrArg List.length heq
          have hge := quoteMeta_length_ge s
          simp at hlen
          omega
        · by_cases hmc : isMetaChar c
          · rw [if_pos hmc]
            intro heq
            have hlen := congrArg List.length heq
            have hge := quoteMeta_length_ge s
            simp at hlen
            omega
          · rw [if_neg hmc]
            intro heq
            have htl : quoteMeta s = s := by
              simpa using heq
            exact ih ⟨x, hx', hmx⟩ htl
  simp only [isRegexTarget]
  simpa using hne

/-- `doPackage` under an invalid regular-expression target: with no files
to consider nothing happens, otherwise the compilation failure at the
first file is fatal. -/
theorem doPackageRun_invalid (compile : Str → Option (Str → Bool)) (fl : Flags)
    (ident : Str) (files : List FileModel)
    (hrt : isRegexTarget ident = true) (hcomp : compile ident = none) :
    doPackageRun compile fl ident files =
      (if (if fl.packageF then files.filter (fun f => f.pkgDoc.isSome)
            else files).isEmpty
       then ([], false) else ([Event.regexFatal], true)) := by
  by_cases hemp : (if fl.packageF then files.filter (fun f => f.pkgDoc.isSome)
      else files).isEmpty
  · simp [doPackageRun, hemp]
  · simp [doPackageRun, hemp, hrt, hcomp]

/-- The package loop under an invalid regular-expression target: the only
event it can produce is the fatal one, and it exits fatally exactly when
some package has files to consider. -/
theorem runPkgs_invalid (compile : Str → Option (Str → Bool)) (fl : Flags)
    (ident : Str) (hrt : isRegexTarget ident = true)
    (hcomp : compile ident = none) (ps : List (List FileModel)) :
    (∀ e ∈ (runPkgs compile fl ident ps).1, e = Event.regexFatal) ∧
    ((runPkgs compile fl ident ps).2 = true ↔
      ∃ p ∈ ps, (if fl.packageF then p.filter (fun f => f.pkgDoc.isSome)
        else p) ≠ []) := by
  induction ps with
  | nil => simp [runPkgs]
  | cons p rest ih =>
      rw [runPkgs, doPackageRun_invalid compile fl ident p hrt hcomp]
      by_cases hemp : (if fl.packageF then p.filter (fun f => f.pkgDoc.isSome)
          else p).isEmpty
      · rw [if_pos hemp]
        simp only []
        have hpnil : (if fl.packageF then p.filter (fun f => f.pkgDoc.isSome)
            else p) = [] := by
          simpa [List.isEmpty_iff] using hemp
        constructor
        · intro e he
          exact ih.1 e (by simpa using he)
        · simp only [List.mem_cons]
          constructor
          · intro hflag
            rcases ih.2.mp (by simpa using hflag) with ⟨q, hq, hqne⟩
            exact ⟨q, Or.inr hq, hqne⟩
          · rintro ⟨q, hq | hq, hqne⟩
            · exact absurd hpnil (hq ▸ hqne)
            · exact by simpa using ih.2.mpr ⟨q, hq, hqne⟩
      · rw [if_neg hemp]
        simp only []
        have hpne : (if fl.packageF then p.filter (fun f => f.pkgDoc.isSome)
            else p) ≠ [] := by
          simpa [List.isEmpty_iff] using hemp
        constructor
        · intro e he
          simpa using he
        · simp only [List.mem_cons]
          exact ⟨fun _ => ⟨p, Or.inl rfl, hpne⟩, fun _ => by trivial⟩

/-- The directory loop under an invalid regular-expression target: every
event is a parse step or the fatal one, and the run exits fatally exactly
when some directory holds a package with files to consider. -/
theorem runDirs_invalid (compile : Str → Option (Str → Bool)) (fl : Flags)
    (ident : Str) (hrt : isRegexTarget ident = true)
    (hcomp : compile ident = none) (ds : List DirM) :
    (∀ e ∈ (runDirs compile fl ident ds).1,
      (∃ dp, e = Event.parseDir dp) ∨ e = Event.regexFatal) ∧
    ((runDirs compile fl ident ds).2 = true ↔
      ∃ d ∈ ds, ∃ p ∈ d.pkgs,
        (if fl.packageF then p.filter (fun f => f.pkgDoc.isSome)
          else p) ≠ []) := by
  induction ds with
  | nil => simp [runDirs]
  | cons d rest ih =>
      rw [runDirs]
      have hp := runPkgs_invalid compile fl ident hrt hcomp d.pkgs
      by_cases hflag : (runPkgs compile fl ident d.pkgs).2
      · rw [if_pos hflag]
        constructor
        · intro e he
          rcases List.mem_cons.mp he with rfl | he'
          · exact Or.inl ⟨d.dpath, rfl⟩
          · exact Or.inr (hp.1 e he')
        · simp only [List.mem_cons]
          exact ⟨fun _ => by
              rcases hp.2.mp hflag with ⟨q, hq, hqne⟩
              exact ⟨d, Or.inl rfl, q, hq, hqne⟩,
            fun _ => by trivial⟩
      · rw [if_neg hflag]
        constructor
        · intro e he
          simp only [List.cons_append, List.mem_cons, List.mem_append] at he
          rcases he with rfl | he | he
          · exact Or.inl ⟨d.dpath, rfl⟩
          · exact Or.inr (hp.1 e he)
          · exact ih.1 e he
        · simp only []
          constructor
          · intro hflag'
            rcases ih.2.mp hflag' with ⟨d', hd', q, hq, hqne⟩
            exact ⟨d', List.mem_cons_of_mem _ hd', q, hq, hqne⟩
          · rintro ⟨d', hd', q, hq, hqne⟩
            rcases List.mem_cons.mp hd' with rfl | hd''
            · exact absurd (hp.2.mpr ⟨q, hq, hqne⟩) (by simpa using hflag)
            · exact ih.2.mpr ⟨d', hd'', q, hq, hqne⟩

/-- C6 counterexample: the target is the single character `(`, which the
metacharacter test classifies as a regular-expression target and whose
compilation genuinely fails (the program hands the library the pattern
`^(?i:()$`, which has an unclosed group), modelled by the compile oracle
returning `none` at it.  Against a tree holding one package, the run's
trace walks a source root and parses a directory before the fatal regex
error is reported, contradicting the claim that the error precedes any
scanning. -/
theorem c6_counterexample :
    (runDoc (fun _ => none) flagsNone ['('] exRoots).1
        = [.walkRoot ['r'], .parseDir ['d'], .regexFatal] ∧
    (runDoc (fun _ => none) flagsNone ['('] exRoots).2 = true ∧
    (runDoc (fun _ => none) flagsNone ['('] exRoots).1.head?
        ≠ some .regexFatal := by
  decide

/-- C6 (amended): an invalid regular-expression target is fatal, but only
once the scan reaches a candidate package with files to consider: the run
then exits (status 2) having printed nothing; with no such package the
invalid target is never reported.  Directory walking and parsing precede
the report. -/
theorem c6_invalid_regex_fatal (compile : Str → Option (Str → Bool))
    (fl : Flags) (ident : Str) (roots : List RootM)
    (hmeta : ∃ c ∈ ident, isMetaChar c = true)
    (hcomp : compile ident = none) :
    (∀ e ∈ (runDoc compile fl ident roots).1, ∀ s : Str, e ≠ .printed s) ∧
    ((runDoc compile fl ident roots).2 = true ↔
      ∃ d ∈ roots.flatMap (fun r => r.dirs), ∃ p ∈ d.pkgs,
        (if fl.packageF then p.filter (fun f => f.pkgDoc.isSome)
          else p) ≠ []) := by
  have hrt := isRegexTarget_of_meta ident hmeta
  have hd := runDirs_invalid compile fl ident hrt hcomp
    (roots.flatMap (fun r => r.dirs))
  constructor
  · intro e he s
    simp only [runDoc, List.mem_append, List.mem_map] at he
    rcases he with ⟨r, _, rfl⟩ | he
    · intro hcontra
      cases hcontra
    · rcases hd.1 e he with ⟨dp, rfl⟩ | rfl
      · intro hcontra
        cases hcontra
      · intro hcontra
        cases hcontra
  · simpa only [runDoc] using hd.2

/-- C6 witness: the amended statement at the concrete one-package tree,
with the genuinely invalid target `(` (compiled as the malformed pattern
`^(?i:()$`). -/
theorem c6_invalid_regex_fatal_witness :
    (∀ e ∈ (runDoc (fun _ => none) flagsNone ['('] exRoots).1,
      ∀ s : Str, e ≠ .printed s) ∧
    ((runDoc (fun _ => none) flagsNone ['('] exRoots).2 = true ↔
      ∃ d ∈ exRoots.flatMap (fun r => r.dirs), ∃ p ∈ d.pkgs,
        (if flagsNone.packageF then p.filter (fun f => f.pkgDoc.isSome)
          else p) ≠ []) :=
  c6_invalid_regex_fatal (fun _ => none) flagsNone ['('] exRoots
    ⟨'(', by decide, by decide⟩ rfl

/-- Folding preserves an invariant that every list element's step
preserves. -/
theorem foldl_inv {α β : Type _} (P : β → Prop) (op : β → α → β) :
    ∀ (l : List α) (b : β), P b → (∀ x ∈ l, ∀ s, P s → P (op s x)) →
      P (l.foldl op b) := by
  intro l
  induction l with
  | nil => intro b hb _; exact hb
  | cons x xs ih =>
      intro b hb hstep
      exact ih (op b x) (hstep x (List.mem_cons_self _ _) b hb)
        (fun y hy s hs => hstep y (List.mem_cons_of_mem _ hy) s hs)

/-- `File.docs` on a function declaration reads only the doc facet. -/
theorem funcDocs_congr {fl fl' : Flags} (h : fl'.docF = fl.docF)
    (d : FuncDecl) : funcDocs fl' d = funcDocs fl d := by
  simp [funcDocs, docsStr, h]

/-- The whole method walk reads only the doc facet of the flags. -/
theorem methodSetDocs_congr {fl fl' : Flags} (h : fl'.docF = fl.docF)
    (set : List MethodSel) (allFiles : List FileModel) :
    methodSetDocs fl' set allFiles = methodSetDocs fl set allFiles := by
  have hf : funcDocs fl' = funcDocs fl := funext (funcDocs_congr h)
  have hstep : mvStep fl' = mvStep fl := by
    funext st d
    simp only [mvStep, hf]
  have hdecl : mvStepDecl fl' = mvStepDecl fl := by
    funext st dc
    cases dc <;> simp [mvStepDecl, hstep]
  have hfile : mvFile fl' = mvFile fl := by
    funext st f
    simp [mvFile, hdecl]
  simp only [methodSetDocs, hfile]

/-- One step of the method walk preserves the doc-slot invariant, as long
as the declaration stepped over is one of the package's. -/
theorem docsFromDecls_mvStep (fl : Flags) (allFiles : List FileModel)
    (st : MVState) (d : FuncDecl)
    (hd : Decl.func d ∈ allFiles.flatMap FileModel.decls)
    (hst : DocsFromDecls fl allFiles st.docs) :
    DocsFromDecls fl allFiles (mvStep fl st d).docs := by
  unfold mvStep
  cases hfind : mvFind d.namePos st.methods with
  | none => exact hst
  | some p =>
      rcases p with ⟨m, rest⟩
      intro j
      have hdocs : (if st.methods.length == 1
          then MVState.mk st.methods (fun j =>
            if j = m.index then funcDocs fl { d with body := none }
            else st.docs j)
          else MVState.mk rest (fun j =>
            if j = m.index then funcDocs fl { d with body := none }
            else st.docs j)).docs j =
          (if j = m.index then funcDocs fl { d with body := none }
            else st.docs j) := by
        split <;> rfl
      rw [hdocs]
      by_cases hj : j = m.index
      · exact Or.inr ⟨d, hd, by simp [hj]⟩
      · rw [if_neg hj]
        exact hst j

/-- After walking every file, every doc slot is either empty or the
docs-rendering of a package declaration with its body cleared. -/
theorem docsFromDecls_final (fl : Flags) (allFiles : List FileModel)
    (st : MVState) (hst : DocsFromDecls fl allFiles st.docs) :
    DocsFromDecls fl allFiles (allFiles.foldl (mvFile fl) st).docs := by
  refine foldl_inv (fun s => DocsFromDecls fl allFiles s.docs) (mvFile fl)
    allFiles st hst ?_
  intro f hf s hs
  unfold mvFile
  refine foldl_inv (fun s => DocsFromDecls fl allFiles s.docs)
    (mvStepDecl fl) f.decls s hs ?_
  intro dc hdc s' hs'
  cases dc with
  | gen g => exact hs'
  | func d =>
      refine docsFromDecls_mvStep fl allFiles s' d ?_ hs'
      exact List.mem_flatMap.mpr ⟨f, hf, hdc⟩

/-- C10: a method located by the method-set walk is emitted as the
docs-rendering of its declaration (body cleared) and nothing else: the
output is unchanged by the src and url facets, it is empty whenever the
doc facet is off, and every emitted string is exactly the doc text of
some declaration of the package. -/
theorem c10_methodset_docs_only (fl fl' : Flags) (set : List MethodSel)
    (allFiles : List FileModel) :
    (fl'.docF = fl.docF →
      methodSetDocs fl' set allFiles = methodSetDocs fl set allFiles) ∧
    (fl.docF = false → methodSetDocs fl set allFiles = []) ∧
    (∀ s ∈ methodSetDocs fl set allFiles, ∃ d : FuncDecl,
      Decl.func d ∈ allFiles.flatMap FileModel.decls ∧
        s = funcDocs fl { d with body := none }) := by
  have hshape : ∀ s ∈ methodSetDocs fl set allFiles, ∃ d : FuncDecl,
      Decl.func d ∈ allFiles.flatMap FileModel.decls ∧
        s = funcDocs fl { d with body := none } := by
    intro s hs
    unfold methodSetDocs at hs
    by_cases hm : (buildMethods set).isEmpty
    · rw [if_pos hm] at hs
      simp at hs
    · rw [if_neg hm] at hs
      have hfin := docsFromDecls_final fl allFiles
        ⟨buildMethods set, fun _ => []⟩ (fun _ => Or.inl rfl)
      have hmem := List.mem_of_mem_filter hs
      rcases List.mem_map.mp hmem with ⟨j, _, rfl⟩
      rcases hfin j with hnil | ⟨d, hd, heq⟩
      · have hkeep := List.of_mem_filter hs
        rw [hnil] at hkeep
        simp at hkeep
      · exact ⟨d, hd, heq⟩
  have hne : ∀ s ∈ methodSetDocs fl set allFiles, s.isEmpty = false := by
    intro s hs
    unfold methodSetDocs at hs
    by_cases hm : (buildMethods set).isEmpty
    · rw [if_pos hm] at hs
      simp at hs
    · rw [if_neg hm] at hs
      simpa using List.of_mem_filter hs
  refine ⟨fun h => methodSetDocs_congr h set allFiles, ?_, hshape⟩
  intro hdoc
  rw [List.eq_nil_iff_forall_not_mem]
  intro s hs
  rcases hshape s hs with ⟨d, _, heq⟩
  have hkeep := hne s hs
  rw [heq] at hkeep
  simp [funcDocs, docsStr, hdoc] at hkeep

/-- A spec with no type information is walked the same way whatever file
list is handed to the method-set machinery. -/
theorem visitSpec_noTI (fl : Flags) (f : FileCtx) (rxm : Option (Str → Bool))
    (ident : Str) (A B : List FileModel) (doPrint : Bool) (g : GenDecl)
    (sp : SpecN) (h : specNoTI sp = true) :
    visitSpec fl f rxm ident A doPrint g sp
      = visitSpec fl f rxm ident B doPrint g sp := by
  cases sp with
  | valueSpec names => rfl
  | importSpec => rfl
  | typeSpec nameId shape stext sdoc tinfo =>
      cases tinfo with
      | none => rfl
      | some ti => simp [specNoTI] at h

/-- A declaration with no type information is walked the same way
whatever file list is handed to the method-set machinery. -/
theorem visitDecl_noTI (fl : Flags) (f : FileCtx) (rxm : Option (Str → Bool))
    (ident : Str) (A B : List FileModel) (doPrint : Bool) (dc : Decl)
    (h : declNoTI dc = true) :
    visitDecl fl f rxm ident A doPrint dc
      = visitDecl fl f rxm ident B doPrint dc := by
  cases dc with
  | func d => rfl
  | gen g =>
      simp only [visitDecl]
      have hall := List.all_eq_true.mp h
      have : g.specs.map (visitSpec fl f rxm ident A doPrint g)
          = g.specs.map (visitSpec fl f rxm ident B doPrint g) := by
        apply List.map_congr_left
        intro sp hsp
        exact visitSpec_noTI fl f rxm ident A B doPrint g sp (hall sp hsp)
      rw [this]

/-- A file with no type information is walked the same way whatever file
list is handed to the method-set machinery. -/
theorem fileWalk_noTI (fl : Flags) (rxm : Option (Str → Bool)) (ident : Str)
    (A B : List FileModel) (doPrint : Bool) (f : FileModel)
    (h : fileNoTI f = true) :
    fileWalk fl rxm ident A doPrint f = fileWalk fl rxm ident B doPrint f := by
  simp only [fileWalk]
  have hall := List.all_eq_true.mp h
  have : f.decls.map (visitDecl fl f.ctx rxm ident A doPrint)
      = f.decls.map (visitDecl fl f.ctx rxm ident B doPrint) := by
    apply List.map_congr_left
    intro dc hdc
    exact visitDecl_noTI fl f.ctx rxm ident A B doPrint dc (hall dc hdc)
  rw [this]

/-- Empty strings contribute nothing to a concatenation. -/
theorem foldr_append_filter (l : List Str) :
    l.foldr (· ++ ·) [] = (l.filter (fun s => !s.isEmpty)).foldr (· ++ ·) [] := by
  induction l with
  | nil => rfl
  | cons s tl ih =>
      by_cases hs : s.isEmpty
      · have : s = [] := by
          cases s
          · rfl
          · simp at hs
        simp [this, ih]
      · simp only [List.foldr_cons, List.filter_cons]
        rw [if_pos (by simpa using hs)]
        simp [ih]

/-- A permutation of a list of length at most one is the list itself. -/
theorem perm_length_le_one_eq {α : Type _} (l l' : List α) (h : l.Perm l')
    (hlen : l.length ≤ 1) : l = l' := by
  cases l with
  | nil => exact (List.perm_nil.mp h.symm).symm
  | cons a tl =>
      cases tl with
      | nil => exact (List.perm_singleton.mp h.symm).symm
      | cons b tl' => simp at hlen

/-- Point-wise equal predicates give equal `any`. -/
theorem any_congr {α : Type _} (l : List α) (p q : α → Bool)
    (h : ∀ x ∈ l, p x = q x) : l.any p = l.any q := by
  induction l with
  | nil => rfl
  | cons x xs ih =>
      simp only [List.any_cons]
      rw [h x (List.mem_cons_self _ _), ih (fun y hy => h y (List.mem_cons_of_mem _ hy))]

/-- Permutations give equal `any`. -/
theorem perm_any_congr {α : Type _} (l l' : List α) (h : l.Perm l')
    (p : α → Bool) : l.any p = l'.any p := by
  rw [Bool.eq_iff_iff]
  simp only [List.any_eq_true]
  constructor
  · rintro ⟨x, hx, hp⟩
    exact ⟨x, h.mem_iff.mp hx, hp⟩
  · rintro ⟨x, hx, hp⟩
    exact ⟨x, h.mem_iff.mpr hx, hp⟩

/-- C7 counterexample: a package whose two files each hold a matching
exported function.  The two enumeration orders of the same pair of files
are a permutation of one another, yet the rendered outputs differ, so a
rerun that enumerates the map differently changes the bytes. -/
theorem c7_counterexample :
    [exF1, exF2].Perm [exF2, exF1] ∧
    doPackageOut flagsLitDoc none ['f', 'o', 'o'] [exF1, exF2]
      ≠ doPackageOut flagsLitDoc none ['f', 'o', 'o'] [exF2, exF1] := by
  decide

/-- C7 (amended): the program is a pure function of the query and the
ordered file list, but the per-package file order comes from Go map
iteration and is not fixed across runs; output is guaranteed byte
identical between two enumeration orders when at most one file renders a
non-empty contribution (and no method-set walk is triggered); otherwise
only the per-file blocks are fixed, not their order. -/
theorem c7_deterministic_up_to_file_order (fl : Flags)
    (rxm : Option (Str → Bool)) (ident : Str) (files files' : List FileModel)
    (hpf : fl.packageF = false)
    (hperm : files.Perm files')
    (hnoti : ∀ f ∈ files, fileNoTI f = true)
    (hone : ((files.map (fun f => (fileWalk fl rxm ident [] true f).1)).filter
        (fun s => !s.isEmpty)).length ≤ 1) :
    doPackageOut fl rxm ident files = doPackageOut fl rxm ident files' := by
  have hnoti' : ∀ f ∈ files', fileNoTI f = true :=
    fun f hf => hnoti f (hperm.mem_iff.mpr hf)
  simp only [doPackageOut, hpf, Bool.false_eq_true, if_false]
  have hfound : files.any (fun f => (fileWalk fl rxm ident files false f).2)
      = files'.any (fun f => (fileWalk fl rxm ident files' false f).2) := by
    rw [any_congr files _ (fun f => (fileWalk fl rxm ident [] false f).2)
        (fun f hf => by rw [fileWalk_noTI fl rxm ident files [] false f (hnoti f hf)]),
      any_congr files' _ (fun f => (fileWalk fl rxm ident [] false f).2)
        (fun f hf => by rw [fileWalk_noTI fl rxm ident files' [] false f (hnoti' f hf)])]
    exact perm_any_congr files files' hperm _
  rw [← hfound]
  by_cases hf : files.any (fun f => (fileWalk fl rxm ident files false f).2)
  · rw [if_pos hf, if_pos hf]
    have hmape : files.map (fun f => (fileWalk fl rxm ident files true f).1)
        = files.map (fun f => (fileWalk fl rxm ident [] true f).1) :=
      List.map_congr_left (fun f hf' => by
        rw [fileWalk_noTI fl rxm ident files [] true f (hnoti f hf')])
    have hmape' : files'.map (fun f => (fileWalk fl rxm ident files' true f).1)
        = files'.map (fun f => (fileWalk fl rxm ident [] true f).1) :=
      List.map_congr_left (fun f hf' => by
        rw [fileWalk_noTI fl rxm ident files' [] true f (hnoti' f hf')])
    rw [hmape, hmape', foldr_append_filter, foldr_append_filter
      (files'.map (fun f => (fileWalk fl rxm ident [] true f).1))]
    have hpermf : ((files.map (fun f => (fileWalk fl rxm ident [] true f).1)).filter
          (fun s => !s.isEmpty)).Perm
        ((files'.map (fun f => (fileWalk fl rxm ident [] true f).1)).filter
          (fun s => !s.isEmpty)) :=
      (hperm.map _).filter _
    rw [perm_length_le_one_eq _ _ hpermf hone]
  · rw [if_neg hf, if_neg hf]

/-- C7 witness: the amended determinism at a concrete two-file package
with a single contributing file. -/
theorem c7_deterministic_witness :
    doPackageOut flagsLitDoc none ['f', 'o', 'o'] [exF1, exF3]
      = doPackageOut flagsLitDoc none ['f', 'o', 'o'] [exF3, exF1] :=
  c7_deterministic_up_to_file_order flagsLitDoc none ['f', 'o', 'o']
    [exF1, exF3] [exF3, exF1] rfl (by decide) (by decide) (by decide)

/-- Characterization of the collected search list: each entry keeps its
ordinal in the incoming set, carries the set entry at that ordinal, and is
exported. -/
theorem buildMethodsAux_mem (set : List MethodSel) (i : Nat) (m : MethodM)
    (hm : m ∈ buildMethodsAux set i) :
    ∃ k, ∃ hk : k < set.length, m.index = i + k ∧ m.sel = set.get ⟨k, hk⟩ ∧
      isExported m.sel.name = true := by
  induction set generalizing i with
  | nil => simp [buildMethodsAux] at hm
  | cons s rest ih =>
      rw [buildMethodsAux] at hm
      rcases List.mem_append.mp hm with h1 | h2
      · by_cases hs : isExported s.name
        · rw [if_pos hs] at h1
          have : m = ⟨i, s⟩ := List.mem_singleton.mp h1
          subst this
          exact ⟨0, by simp, by simp, by simp, hs⟩
        · rw [if_neg hs] at h1
          simp at h1
      · rcases ih (i + 1) h2 with ⟨k, hk, hidx, hsel, hex⟩
        refine ⟨k + 1, by simpa using hk, by omega, ?_, hex⟩
        simpa using hsel

/-- The collected search list's ordinals are strictly increasing. -/
theorem buildMethodsAux_pairwise (set : List MethodSel) (i : Nat) :
    List.Pairwise (fun a b : MethodM => a.index < b.index)
      (buildMethodsAux set i) := by
  induction set generalizing i with
  | nil => simp [buildMethodsAux]
  | cons s rest ih =>
      rw [buildMethodsAux]
      by_cases hs : isExported s.name
      · rw [if_pos hs]
        simp only [List.singleton_append]
        refine List.Pairwise.cons ?_ (ih (i + 1))
        intro m hm
        rcases buildMethodsAux_mem rest (i + 1) m hm with ⟨k, hk, hidx, _, _⟩
        simp only []
        omega
      · rw [if_neg hs]
        simpa using ih (i + 1)

/-- Two collected entries with the same ordinal are the same entry. -/
theorem buildMethods_index_inj (set : List MethodSel) (m1 m2 : MethodM)
    (h1 : m1 ∈ buildMethods set) (h2 : m2 ∈ buildMethods set)
    (hidx : m1.index = m2.index) : m1 = m2 := by
  rcases buildMethodsAux_mem set 0 m1 h1 with ⟨k1, hk1, hi1, hs1, _⟩
  rcases buildMethodsAux_mem set 0 m2 h2 with ⟨k2, hk2, hi2, hs2, _⟩
  have hk : k1 = k2 := by omega
  subst hk
  cases m1
  cases m2
  simp_all

/-- With pairwise-distinct positions in the incoming set, two collected
entries with the same position are the same entry. -/
theorem buildMethods_pos_inj (set : List MethodSel)
    (hnd : (set.map (fun s => s.pos)).Nodup) (m1 m2 : MethodM)
    (h1 : m1 ∈ buildMethods set) (h2 : m2 ∈ buildMethods set)
    (hpos : m1.sel.pos = m2.sel.pos) : m1 = m2 := by
  rcases buildMethodsAux_mem set 0 m1 h1 with ⟨k1, hk1, hi1, hs1, _⟩
  rcases buildMethodsAux_mem set 0 m2 h2 with ⟨k2, hk2, hi2, hs2, _⟩
  have hg1 : (set.map (fun s => s.pos)).get ⟨k1, by simpa using hk1⟩
      = m1.sel.pos := by
    simp [List.getElem_map, hs1, List.get_eq_getElem]
  have hg2 : (set.map (fun s => s.pos)).get ⟨k2, by simpa using hk2⟩
      = m2.sel.pos := by
    simp [List.getElem_map, hs2, List.get_eq_getElem]
  have hk : k1 = k2 := by
    have := hnd.get_inj_iff.mp (hg1.trans (hpos.trans hg2.symm))
    simpa using this
  subst hk
  cases m1
  cases m2
  simp_all

/-- The ordinals of the collected search list are below the set's size. -/
theorem buildMethods_index_lt (set : List MethodSel) (m : MethodM)
    (hm : m ∈ buildMethods set) : m.index < set.length := by
  rcases buildMethodsAux_mem set 0 m hm with ⟨k, hk, hidx, _, _⟩
  omega

/-- The method walk of one file only steps over its function
declarations. -/
theorem mvFile_eq (fl : Flags) (st : MVState) (f : FileModel) :
    mvFile fl st f = (fileFuncs f).foldl (mvStep fl) st := by
  unfold mvFile fileFuncs
  generalize f.decls = l
  induction l generalizing st with
  | nil => rfl
  | cons dc tl ih =>
      cases dc with
      | gen g => simpa [mvStepDecl, declFunc] using ih st
      | func d => simpa [mvStepDecl, declFunc] using ih (mvStep fl st d)

/-- The method walk over all files is the walk over the flattened list of
the package's function declarations. -/
theorem mvFold_eq (fl : Flags) (st : MVState) (allFiles : List FileModel) :
    allFiles.foldl (mvFile fl) st
      = (packageFuncs allFiles).foldl (mvStep fl) st := by
  unfold packageFuncs
  induction allFiles generalizing st with
  | nil => rfl
  | cons f tl ih =>
      simp only [List.foldl_cons, List.flatMap_cons, List.foldl_append]
      rw [mvFile_eq, ih]

/-- One step preserves the method-walk invariant. -/
theorem mvInv_step (fl : Flags) (methods0 : List MethodM)
    (declOf : MethodM → FuncDecl) (decls : List FuncDecl)
    (hmpos : ∀ m1 ∈ methods0, ∀ m2 ∈ methods0, m1.sel.pos = m2.sel.pos → m1 = m2)
    (hmidx : ∀ m1 ∈ methods0, ∀ m2 ∈ methods0, m1.index = m2.index → m1 = m2)
    (hdpos : ∀ d1 ∈ decls, ∀ d2 ∈ decls, d1.namePos = d2.namePos → d1 = d2)
    (hdeclOf : ∀ m ∈ methods0, declOf m ∈ decls ∧ (declOf m).namePos = m.sel.pos)
    (done : List FuncDecl) (d : FuncDecl) (hd : d ∈ decls) (st : MVState)
    (hinv : MVInv fl methods0 declOf done st) :
    MVInv fl methods0 declOf (done ++ [d]) (mvStep fl st d) := by
  obtain ⟨hsub, hstill, hwritten, hempty⟩ := hinv
  cases hfind : mvFind d.namePos st.methods with
  | none =>
      have hnone := (mvFind_eq_none_iff d.namePos st.methods).mp hfind
      have hstep0 : mvStep fl st d = st := by
        unfold mvStep
        rw [hfind]
      rw [hstep0]
      refine ⟨hsub, ?_, ?_, ?_⟩
      · intro m hm hnot
        exact hstill m hm (fun d' hd' => hnot d' (List.mem_append_left _ hd'))
      · intro m hm hex
        rcases hex with ⟨d', hd', hp⟩
        rcases List.mem_append.mp hd' with hd'' | hd''
        · exact hwritten m hm ⟨d', hd'', hp⟩
        · have hdd : d' = d := List.mem_singleton.mp hd''
          subst hdd
          by_cases hms : m ∈ st.methods
          · exact absurd hp.symm (hnone m hms)
          · by_cases hdone : ∃ d'' ∈ done, d''.namePos = m.sel.pos
            · exact hwritten m hm hdone
            · exact absurd (hstill m hm (fun d'' hd'' hc =>
                hdone ⟨d'', hd'', hc⟩)) hms
      · intro j hj
        refine hempty j ?_
        rintro ⟨m, hm, hidx, d', hd', hp⟩
        exact hj ⟨m, hm, hidx, d', List.mem_append_left _ hd', hp⟩
  | some p =>
      rcases p with ⟨m, rest⟩
      rcases mvFind_some_spec d.namePos st.methods m rest hfind
        with ⟨hmmem, hmpos', hrsub, hsplit⟩
      have hm0 : m ∈ methods0 := hsub.subset hmmem
      have hdofm : declOf m = d :=
        hdpos (declOf m) (hdeclOf m hm0).1 d hd
          (by rw [(hdeclOf m hm0).2, hmpos'])
      have hstep : mvStep fl st d =
          if (st.methods.length == 1) = true
          then MVState.mk st.methods (fun j =>
            if j = m.index then funcDocs fl { d with body := none }
            else st.docs j)
          else MVState.mk rest (fun j =>
            if j = m.index then funcDocs fl { d with body := none }
            else st.docs j) := by
        unfold mvStep
        rw [hfind]
      have hwr : ∀ m' ∈ methods0, (∃ d' ∈ done ++ [d], d'.namePos = m'.sel.pos) →
          (if m'.index = m.index then funcDocs fl { d with body := none }
            else st.docs m'.index) = funcDocs fl { declOf m' with body := none } := by
        intro m' hm' hex
        rcases hex with ⟨d', hd', hp⟩
        rcases List.mem_append.mp hd' with hd'' | hd''
        · by_cases hij : m'.index = m.index
          · have hEq : m' = m := hmidx m' hm' m hm0 hij
            subst hEq
            rw [if_pos rfl, hdofm]
          · rw [if_neg hij]
            exact hwritten m' hm' ⟨d', hd'', hp⟩
        · have hdd : d' = d := List.mem_singleton.mp hd''
          subst hdd
          have hEq : m' = m := hmpos m' hm' m hm0 (hp.symm.trans hmpos'.symm)
          subst hEq
          rw [if_pos rfl, hdofm]
      have hem : ∀ j : Nat, (¬ ∃ m' ∈ methods0, m'.index = j ∧
            ∃ d' ∈ done ++ [d], d'.namePos = m'.sel.pos) →
          (if j = m.index then funcDocs fl { d with body := none }
            else st.docs j) = [] := by
        intro j hj
        have hjm : j ≠ m.index := by
          intro he
          exact hj ⟨m, hm0, he.symm, d,
            List.mem_append_right _ (List.mem_singleton_self d), hmpos'.symm⟩
        rw [if_neg hjm]
        refine hempty j ?_
        rintro ⟨m', hm', hidx, d', hd', hp⟩
        exact hj ⟨m', hm', hidx, d', List.mem_append_left _ hd', hp⟩
      have hstl : ∀ m' ∈ methods0, (∀ d' ∈ done ++ [d], d'.namePos ≠ m'.sel.pos) →
          m' ∈ st.methods ∧ m' ≠ m := by
        intro m' hm' hnot
        refine ⟨hstill m' hm'
          (fun d' hd' => hnot d' (List.mem_append_left _ hd')), ?_⟩
        intro he
        exact hnot d (List.mem_append_right _ (List.mem_singleton_self d))
          (by rw [he, hmpos'])
      rw [hstep]
      by_cases hlen : (st.methods.length == 1) = true
      · rw [if_pos hlen]
        exact ⟨hsub,
          fun m' hm' hnot => (hstl m' hm' hnot).1,
          fun m' hm' hex => hwr m' hm' hex,
          fun j hj => hem j hj⟩
      · rw [if_neg hlen]
        refine ⟨hrsub.trans hsub, ?_,
          fun m' hm' hex => hwr m' hm' hex,
          fun j hj => hem j hj⟩
        intro m' hm' hnot
        rcases hsplit m' (hstl m' hm' hnot).1 with hr | he
        · exact hr
        · exact absurd he (hstl m' hm' hnot).2

/-- The fold of the method walk preserves the invariant along any list of
the package's declarations. -/
theorem mvInv_fold (fl : Flags) (methods0 : List MethodM)
    (declOf : MethodM → FuncDecl) (decls : List FuncDecl)
    (hmpos : ∀ m1 ∈ methods0, ∀ m2 ∈ methods0, m1.sel.pos = m2.sel.pos → m1 = m2)
    (hmidx : ∀ m1 ∈ methods0, ∀ m2 ∈ methods0, m1.index = m2.index → m1 = m2)
    (hdpos : ∀ d1 ∈ decls, ∀ d2 ∈ decls, d1.namePos = d2.namePos → d1 = d2)
    (hdeclOf : ∀ m ∈ methods0, declOf m ∈ decls ∧ (declOf m).namePos = m.sel.pos) :
    ∀ (todo done : List FuncDecl) (st : MVState), (∀ x ∈ todo, x ∈ decls) →
      MVInv fl methods0 declOf done st →
      MVInv fl methods0 declOf (done ++ todo) (todo.foldl (mvStep fl) st) := by
  intro todo
  induction todo with
  | nil =>
      intro done st _ h
      simpa using h
  | cons d tl ih =>
      intro done st hsub hinv
      have h1 := mvInv_step fl methods0 declOf decls hmpos hmidx hdpos hdeclOf
        done d (hsub d (List.mem_cons_self _ _)) st hinv
      have h2 := ih (done ++ [d]) (mvStep fl st d)
        (fun x hx => hsub x (List.mem_cons_of_mem _ hx)) h1
      simpa [List.append_assoc] using h2

/-- Reading the final doc slots back in ordinal order: the slots of the
collected methods hold their values, all other slots are empty, so the
filtered read-out is exactly the per-method values in ordinal order. -/
theorem rangeDocsFilter (val : MethodM → Str) :
    ∀ (n s : Nat) (ms : List MethodM) (docs : Nat → Str),
      List.Pairwise (fun a b : MethodM => a.index < b.index) ms →
      (∀ m ∈ ms, s ≤ m.index ∧ m.index < s + n) →
      (∀ m ∈ ms, docs m.index = val m) →
      (∀ m ∈ ms, (val m).isEmpty = false) →
      (∀ j, s ≤ j → j < s + n → (∀ m ∈ ms, m.index ≠ j) → docs j = []) →
      ((List.range' s n).map docs).filter (fun x => !x.isEmpty) = ms.map val := by
  intro n
  induction n with
  | zero =>
      intro s ms docs _ hbounds _ _ _
      have hms : ms = [] := by
        cases ms with
        | nil => rfl
        | cons m tl =>
            have := hbounds m (List.mem_cons_self _ _)
            omega
      subst hms
      rfl
  | succ n ih =>
      intro s ms docs hpw hbounds hval hne hmiss
      rw [List.range'_succ]
      simp only [List.map_cons, List.filter_cons]
      cases ms with
      | nil =>
          have hds : docs s = [] := hmiss s (le_refl s) (by omega) (by simp)
          rw [hds]
          have hrest := ih (s + 1) [] docs (by simp) (by simp) (by simp) (by simp)
            (fun j hj1 hj2 _ => hmiss j (by omega) (by omega) (by simp))
          simpa using hrest
      | cons m tl =>
          by_cases hms : m.index = s
          · have hds : docs s = val m := by
              rw [← hms]
              exact hval m (List.mem_cons_self _ _)
            rw [hds]
            have hkeep : (!(val m).isEmpty) = true := by
              rw [hne m (List.mem_cons_self _ _)]
              rfl
            rw [if_pos hkeep]
            have hrest := ih (s + 1) tl docs hpw.of_cons
              (fun m' hm' => by
                have h1 := List.rel_of_pairwise_cons hpw hm'
                have h2 := hbounds m' (List.mem_cons_of_mem _ hm')
                omega)
              (fun m' hm' => hval m' (List.mem_cons_of_mem _ hm'))
              (fun m' hm' => hne m' (List.mem_cons_of_mem _ hm'))
              (fun j hj1 hj2 hnot => hmiss j (by omega) (by omega)
                (fun m' hm' => by
                  rcases List.mem_cons.mp hm' with rfl | hm''
                  · omega
                  · exact hnot m' hm''))
            rw [hrest]
            simp
          · have hmgt : s < m.index := by
              have := (hbounds m (List.mem_cons_self _ _)).1
              omega
            have hds : docs s = [] := by
              refine hmiss s (le_refl s) (by omega) ?_
              intro m' hm'
              rcases List.mem_cons.mp hm' with rfl | hm''
              · omega
              · have := List.rel_of_pairwise_cons hpw hm''
                omega
            rw [hds]
            have hrest := ih (s + 1) (m :: tl) docs hpw
              (fun m' hm' => by
                rcases List.mem_cons.mp hm' with rfl | hm''
                · have h2 := hbounds m' (List.mem_cons_self _ _)
                  omega
                · have h1 := List.rel_of_pairwise_cons hpw hm''
                  have h2 := hbounds m' (List.mem_cons_of_mem _ hm'')
                  omega)
              hval hne
              (fun j hj1 hj2 hnot => hmiss j (by omega) (by omega) hnot)
            simpa using hrest

/-- C1: when the package's function declarations have pairwise-distinct
name positions, the incoming method set has pairwise-distinct declaration
positions, and every exported entry of the set is declared somewhere in
the package (the lookup `declOf`), the doc-enabled method walk prints
exactly one docs-rendering per exported entry, in the set's own (ordinal,
hence canonical alphabetic) order — whatever order the declarations are
discovered in across the package's files. -/
theorem c1_method_output_in_set_order (fl : Flags) (set : List MethodSel)
    (allFiles : List FileModel) (declOf : MethodM → FuncDecl)
    (hdoc : fl.docF = true)
    (hsetpos : (set.map (fun s => s.pos)).Nodup)
    (hdposnd : ((packageFuncs allFiles).map (fun d => d.namePos)).Nodup)
    (hdeclOf : ∀ m ∈ buildMethods set, declOf m ∈ packageFuncs allFiles ∧
      (declOf m).namePos = m.sel.pos) :
    methodSetDocs fl set allFiles
      = (buildMethods set).map
          (fun m => funcDocs fl { declOf m with body := none }) := by
  unfold methodSetDocs
  by_cases hm : (buildMethods set).isEmpty
  · rw [if_pos hm]
    have hnil : buildMethods set = [] := by
      simpa [List.isEmpty_iff] using hm
    rw [hnil]
    rfl
  · rw [if_neg hm]
    rw [mvFold_eq]
    have hdposinj : ∀ d1 ∈ packageFuncs allFiles, ∀ d2 ∈ packageFuncs allFiles,
        d1.namePos = d2.namePos → d1 = d2 :=
      fun d1 h1 d2 h2 h => List.inj_on_of_nodup_map hdposnd h1 h2 h
    have hinv0 : MVInv fl (buildMethods set) declOf []
        ⟨buildMethods set, fun _ => []⟩ := by
      refine ⟨List.Sublist.refl _, fun m hm _ => hm, ?_, fun _ _ => rfl⟩
      rintro m _ ⟨d', hd', _⟩
      simp at hd'
    have hinv := mvInv_fold fl (buildMethods set) declOf
      (packageFuncs allFiles)
      (fun m1 h1 m2 h2 hp => buildMethods_pos_inj set hsetpos m1 m2 h1 h2 hp)
      (fun m1 h1 m2 h2 hi => buildMethods_index_inj set m1 m2 h1 h2 hi)
      hdposinj hdeclOf
      (packageFuncs allFiles) [] ⟨buildMethods set, fun _ => []⟩
      (fun x hx => hx) hinv0
    obtain ⟨_, _, hwritten, hempty⟩ := hinv
    rw [List.range_eq_range']
    refine rangeDocsFilter
      (fun m => funcDocs fl { declOf m with body := none })
      set.length 0 (buildMethods set) _
      (buildMethodsAux_pairwise set 0) ?_ ?_ ?_ ?_
    · intro m hmm
      exact ⟨Nat.zero_le _, by simpa using buildMethods_index_lt set m hmm⟩
    · intro m hmm
      exact hwritten m hmm ⟨declOf m, by simpa using (hdeclOf m hmm).1,
        (hdeclOf m hmm).2⟩
    · intro m _
      simp [funcDocs, docsStr, hdoc]
    · intro j _ _ hnot
      refine hempty j ?_
      rintro ⟨m', hm', hidx, _, _, _⟩
      exact hnot m' hm' hidx

/-- C1 witness: the alphabetic set `A`, `B`, `C` against declarations
discovered in source order `C`, `A`, `B`: output comes back in the set's
order. -/
theorem c1_method_output_witness :
    methodSetDocs { flagsNone with docF := true } exSet exMFiles
      = (buildMethods exSet).map
          (fun m => funcDocs { flagsNone with docF := true }
            { exDeclOf m with body := none }) :=
  c1_method_output_in_set_order { flagsNone with docF := true } exSet exMFiles
    exDeclOf rfl (by decide) (by decide) (by decide)

end DocTool
